import Mathlib

/-! Verification of the ManipuLogic propositional-logic core
(`is_well_formed`, `evaluate_statement`, `check_validity`,
`check_user_argument`) against its natural-language specification.

The Python source works on strings; we embed strings as `List Char`.
Fallible operations (list indexing past the end, popping an empty
stack) are modelled with `Option`: `none` stands for a raised
exception, `some v` for a normal return of `v`.
-/

/-- A variable token: the regex `[A-Z]`, a single uppercase ASCII letter. -/
def isVariable (c : Char) : Bool :=
  decide ('A' ≤ c) && decide (c ≤ 'Z')

/-- A binary-operator token: the regex `[&+>^=]`. -/
def isOperator (c : Char) : Bool :=
  c = '&' || c = '+' || c = '>' || c = '^' || c = '='

/-- Any character matched by the token regex
`[A-Z]|[&+>^=]|[()]|~` of the source. -/
def isTokenChar (c : Char) : Bool :=
  isVariable c || isOperator c || c = '(' || c = ')' || c = '~'

/-- `tokenize`: `re.findall` with an alternation of single-character
classes keeps exactly the characters that match some class, in order;
i.e. it filters the string to its recognized characters. -/
def tokenize (s : List Char) : List Char :=
  s.filter isTokenChar

/-- The left-to-right scan of `is_well_formed` (its `for` loop).
Arguments: remaining tokens, paren-stack depth (the stack only ever
holds `'('`, so its height suffices), the previous token
(`last_token`, initially the empty string, modelled as `' '` which
matches no token class), and the position `i`.  `none` models the
`IndexError` the Python code would raise at `tokens[i+1]` when a
negation with `i != 0` and a non-operator previous token is the last
token. -/
def wfLoop : List Char → Nat → Char → Nat → Option Bool
  | [], depth, _, _ => some (depth == 0)
  | t :: rest, depth, last, i =>
    if t = '(' then wfLoop rest (depth + 1) t (i + 1)
    else if t = ')' then
      if depth = 0 ∨ last = '(' then some false
      else if ¬(isOperator (rest.headD ')') = true ∨ rest.headD ')' = ')') then
        some false
      else wfLoop rest (depth - 1) t (i + 1)
    else if t = '~' then
      if ¬isOperator last = true ∧ i ≠ 0 then
        if rest = [] then none
        else if rest.headD ' ' ≠ '(' ∧ last ≠ '~' ∧ last ≠ '(' then some false
        else wfLoop rest depth t (i + 1)
      else wfLoop rest depth t (i + 1)
    else if isVariable t = true then
      if isVariable last = true then some false else wfLoop rest depth t (i + 1)
    else if isOperator t = true then
      if isOperator last = true ∨ last = '(' then some false
      else wfLoop rest depth t (i + 1)
    else wfLoop rest depth t (i + 1)

/-- `is_well_formed` from the source: tokenize, require the token
concatenation to reproduce the input and be nonempty, check the first
and last token classes, then run the scan. -/
def is_well_formed (s : List Char) : Option Bool :=
  if tokenize s ≠ s ∨ (tokenize s).length < 1 then some false
  else if ¬(isVariable ((tokenize s).headD ' ') = true ∨
      (tokenize s).headD ' ' = '(' ∨ (tokenize s).headD ' ' = '~') then some false
  else if ¬(isVariable ((tokenize s).getLastD ' ') = true ∨
      (tokenize s).getLastD ' ' = ')') then some false
  else wfLoop (tokenize s) 0 ' ' 0

/-- The precedence dictionary of `evaluate_statement`.  The source dict
has keys exactly for the eight token characters; any other character
would raise `KeyError`, but `evaluate_statement` only looks up
characters produced by `tokenize`, so a total function returning the
paren value elsewhere is behavior-equivalent on the reachable domain. -/
def precedence (c : Char) : Int :=
  if c = '~' then 3
  else if c = '&' then 2
  else if c = '+' then 1
  else if c = '>' ∨ c = '^' ∨ c = '=' then 0
  else -1

/-- The close-paren arm of the reorder loop: pop operators to the
output until an open paren is popped and discarded; `none` models the
`IndexError` of `operators.pop()` when no open paren is on the stack.
The operator stack is a list with its top at the head. -/
def popToParen : List Char → List Char → Option (List Char × List Char)
  | _, [] => none
  | output, o :: os =>
    if o = '(' then some (output, os) else popToParen (output ++ [o]) os

/-- The operator arm of the reorder loop: pop operators whose
precedence is ≥ the incoming token's precedence to the output. -/
def popGE (t : Char) : List Char → List Char → List Char × List Char
  | output, [] => (output, [])
  | output, o :: os =>
    if precedence o ≥ precedence t then popGE t (output ++ [o]) os
    else (output, o :: os)

/-- The postfix-reorder phase of `evaluate_statement` (its first
`for` loop plus the final drain of the operator stack). -/
def shunt : List Char → List Char → List Char → Option (List Char)
  | [], output, operators => some (output ++ operators)
  | t :: rest, output, operators =>
    if isVariable t = true then shunt rest (output ++ [t]) operators
    else if t = '(' then shunt rest output (t :: operators)
    else if t = ')' then
      match popToParen output operators with
      | none => none
      | some (out2, ops2) => shunt rest out2 ops2
    else
      let p := popGE t output operators
      shunt rest p.1 (t :: p.2)

/-- The loop of `eval_tokens`, on a value stack with its top at the
head.  A token that is a key of `truth_values` is pushed; `~` pops one
value; a binary operator pops the right operand then the left; any
other token is skipped.  `none` models popping an empty stack. -/
def evalLoop (tv : Char → Option Bool) : List Char → List Bool → Option (List Bool)
  | [], stack => some stack
  | t :: rest, stack =>
    match tv t with
    | some v => evalLoop tv rest (v :: stack)
    | none =>
      if t = '~' then
        match stack with
        | [] => none
        | a :: s => evalLoop tv rest ((!a) :: s)
      else if t = '&' ∨ t = '+' ∨ t = '>' ∨ t = '^' ∨ t = '=' then
        match stack with
        | b :: a :: s =>
          evalLoop tv rest
            ((if t = '&' then a && b
              else if t = '+' then a || b
              else if t = '>' then !a || b
              else if t = '^' then a != b
              else a == b) :: s)
        | _ => none
      else evalLoop tv rest stack

/-- `eval_tokens` from the source: run the loop on an empty stack and
return the final `stack.pop()`; `none` models popping an empty stack. -/
def eval_tokens (tv : Char → Option Bool) (tokens : List Char) : Option Bool :=
  match evalLoop tv tokens [] with
  | none => none
  | some [] => none
  | some (a :: _) => some a

/-- `evaluate_statement` from the source: tokenize, reorder to
postfix by precedence, then evaluate the postfix sequence. -/
def evaluate_statement (s : List Char) (tv : Char → Option Bool) : Option Bool :=
  match shunt (tokenize s) [] [] with
  | none => none
  | some output => eval_tokens tv output

/-- Insert a character into a strictly sorted list, keeping it
strictly sorted; folding this embeds Python's `sorted(set(...))`. -/
def insertVar (c : Char) : List Char → List Char
  | [] => [c]
  | x :: xs =>
    if c < x then c :: x :: xs
    else if c = x then x :: xs
    else x :: insertVar c xs

/-- The variable list of `check_validity`: the sorted set of variable
tokens of all statements. -/
def variablesOf (stmts : List (List Char)) : List Char :=
  ((stmts.map tokenize).flatten.filter isVariable).foldr insertVar []

/-- `generate_truth_table` from the source:
`itertools.product([True, False], ...)` zipped with the variables;
the first variable varies slowest and `True` comes first. -/
def generate_truth_table : List Char → List (List (Char × Bool))
  | [] => [[]]
  | v :: vs =>
    ([true, false]).flatMap fun b =>
      (generate_truth_table vs).map fun a => (v, b) :: a

/-- Dictionary lookup in a truth-table row. -/
def tvOf (a : List (Char × Bool)) : Char → Option Bool :=
  fun c => a.lookup c

/-- Python's `all(evaluate_statement(p, truth_values) for p in premises)`:
lazy conjunction that stops at the first premise evaluating to false,
propagating an evaluation error (`none`) if one is raised first. -/
def all_eval (tv : Char → Option Bool) : List (List Char) → Option Bool
  | [] => some true
  | p :: ps =>
    match evaluate_statement p tv with
    | none => none
    | some false => some false
    | some true => all_eval tv ps

/-- The row loop of `check_validity`: for each assignment, the premise
conjunction is evaluated first, then the conclusion (unconditionally);
a row with true premises and a false conclusion returns `False` at
once. -/
def check_rows (premises : List (List Char)) (conclusion : List Char) :
    List (List (Char × Bool)) → Option Bool
  | [] => some true
  | a :: rest =>
    match all_eval (tvOf a) premises with
    | none => none
    | some pt =>
      match evaluate_statement conclusion (tvOf a) with
      | none => none
      | some ct =>
        if pt && !ct then some false else check_rows premises conclusion rest

/-- `check_validity` from the source. -/
def check_validity (premises : List (List Char)) (conclusion : List Char) :
    Option Bool :=
  check_rows premises conclusion
    (generate_truth_table (variablesOf (premises ++ [conclusion])))

/-- One diagnostic line of `check_user_argument` for an ill-formed
premise. -/
def premLine (p : List Char) : List Char :=
  ("Premise ".toList) ++ p ++ (" is not well-formed.\n".toList)

/-- The diagnostic for an ill-formed conclusion. -/
def concLine (c : List Char) : List Char :=
  ("Conclusion ".toList) ++ c ++ (" is not well-formed.\n".toList)

/-- The final verdict message of `check_user_argument`. -/
def verdictLine (v : Bool) : List Char :=
  ("The inputted argument is".toList) ++
    (if v then [] else " not".toList) ++ (" valid.".toList)

/-- The premise-validation loop of `check_user_argument`: concatenate
one diagnostic line for every premise that is not well-formed. -/
def not_wf_premises : List (List Char) → Option (List Char)
  | [] => some []
  | p :: ps =>
    match is_well_formed p, not_wf_premises ps with
    | some b, some msg => some ((if b then [] else premLine p) ++ msg)
    | _, _ => none

/-- `check_user_argument` from the source: validate every premise,
then the conclusion, and only then call the validity checker. -/
def check_user_argument (premises : List (List Char)) (conclusion : List Char) :
    Option (Bool × List Char) :=
  match not_wf_premises premises with
  | none => none
  | some errs =>
    if errs ≠ [] then some (false, errs)
    else
      match is_well_formed conclusion with
      | none => none
      | some cb =>
        if ¬cb = true then some (false, concLine conclusion)
        else
          match check_validity premises conclusion with
          | none => none
          | some v => some (v, verdictLine v)

/-- The assignment `A ↦ true` (a dictionary whose only key is `A`). -/
def tvA : Char → Option Bool :=
  fun c => if c = 'A' then some true else none

/-- The assignment `A ↦ true, B ↦ true, C ↦ false`. -/
def tvABC : Char → Option Bool :=
  fun c =>
    if c = 'A' then some true
    else if c = 'B' then some true
    else if c = 'C' then some false
    else none

/-- The assignment `A ↦ true, B ↦ true`. -/
def tvABtt : Char → Option Bool :=
  fun c => if c = 'A' then some true else if c = 'B' then some true else none

/-- The assignment `A ↦ false, B ↦ false`. -/
def tvABff : Char → Option Bool :=
  fun c => if c = 'A' then some false else if c = 'B' then some false else none

/-- An assignment for the five variables `A`–`E`. -/
def tv5 (a b c d e : Bool) : Char → Option Bool :=
  fun ch =>
    if ch = 'A' then some a
    else if ch = 'B' then some b
    else if ch = 'C' then some c
    else if ch = 'D' then some d
    else if ch = 'E' then some e
    else none

/-- An assignment for the three variables `A`–`C`. -/
def tv3 (a b c : Bool) : Char → Option Bool :=
  fun ch =>
    if ch = 'A' then some a
    else if ch = 'B' then some b
    else if ch = 'C' then some c
    else none

/-- Modelled from the spec: the reference grammar of well-formed
propositional formulas that §4.2 claims `is_well_formed` accepts
exactly — "single-letter variables, the five binary connectives,
prefix negation, and parenthesized grouping", negation directly
preceding its operand (a variable, another negation, or an opening
paren begins every formula, so `'~' :: f` covers exactly the stated
bindings).  This definition follows the spec's words, not the code;
it is the comparison point for the refinement claim. -/
inductive WFF : List Char → Prop
  | var (c : Char) : isVariable c = true → WFF [c]
  | neg (f : List Char) : WFF f → WFF ('~' :: f)
  | paren (f : List Char) : WFF f → WFF ('(' :: f ++ [')'])
  | bin (f g : List Char) (c : Char) :
      isOperator c = true → WFF f → WFF g → WFF (f ++ c :: g)

/-- Modelled from the spec: the truth function of the shared lowest
precedence level §4.3 assigns to `>`, `^` and `=`:
Implication = (¬left) ∨ right, ExclusiveOr = left ≠ right,
Biconditional = left = right. -/
def opSem (c : Char) (a b : Bool) : Bool :=
  if c = '>' then (!a) || b else if c = '^' then a != b else a == b

/-- Modelled from the spec: the precedence table of §4.3 as a
stratified grammar, so that `GrpL tv l f b` means "at precedence level
`l`, the token list `f` is grouped by the table with truth value `b`
under the assignment `tv`".  Level 0 is the shared
{Implication, ExclusiveOr, Biconditional} level, level 1 Disjunction,
level 2 Conjunction, level 3 prefix Negation, level 4 atoms (a
variable or a parenthesized formula); each binary level takes its left
operand at the same level and its right operand at the next level, which
is exactly the table's left association, and parentheses reset to
level 0.  Negation applies to an atom: negation applied directly to
another negation is the excluded directly-nested case. -/
inductive GrpL (tv : Char → Bool) : Nat → List Char → Bool → Prop
  | var (v : Char) : isVariable v = true → GrpL tv 4 [v] (tv v)
  | paren (f : List Char) (b : Bool) :
      GrpL tv 0 f b → GrpL tv 4 ('(' :: f ++ [')']) b
  | lift (l : Nat) (f : List Char) (b : Bool) :
      GrpL tv (l + 1) f b → GrpL tv l f b
  | neg (f : List Char) (b : Bool) : GrpL tv 4 f b → GrpL tv 3 ('~' :: f) (!b)
  | conj (f g : List Char) (a b : Bool) :
      GrpL tv 2 f a → GrpL tv 3 g b → GrpL tv 2 (f ++ '&' :: g) (a && b)
  | disj (f g : List Char) (a b : Bool) :
      GrpL tv 1 f a → GrpL tv 2 g b → GrpL tv 1 (f ++ '+' :: g) (a || b)
  | bot (f g : List Char) (c : Char) (a b : Bool) :
      c = '>' ∨ c = '^' ∨ c = '=' →
      GrpL tv 0 f a → GrpL tv 1 g b → GrpL tv 0 (f ++ c :: g) (opSem c a b)

/-- The boolean assignment sending `A` to true and every other
variable to false. -/
def tv0 : Char → Bool :=
  fun c => c == 'A'

/-- The dictionary form of `tv0`: defined on every variable, absent on
every non-variable character. -/
def tvo0 : Char → Option Bool :=
  fun c => if isVariable c = true then some (tv0 c) else none

theorem op_cases (c : Char) (h : isOperator c = true) :
    c = '&' ∨ c = '+' ∨ c = '>' ∨ c = '^' ∨ c = '=' := by
  simp only [isOperator, Bool.or_eq_true, decide_eq_true_eq] at h
  tauto

theorem var_facts (c : Char) (h : isVariable c = true) :
    c ≠ '(' ∧ c ≠ ')' ∧ c ≠ '~' ∧ isOperator c = false := by
  refine ⟨?_, ?_, ?_, ?_⟩
  · rintro rfl; exact absurd h (by decide)
  · rintro rfl; exact absurd h (by decide)
  · rintro rfl; exact absurd h (by decide)
  · cases hop : isOperator c with
    | false => rfl
    | true =>
      rcases op_cases c hop with rfl | rfl | rfl | rfl | rfl <;>
        exact absurd h (by decide)

theorem op_facts (c : Char) (h : isOperator c = true) :
    c ≠ '(' ∧ c ≠ ')' ∧ c ≠ '~' ∧ isVariable c = false := by
  rcases op_cases c h with rfl | rfl | rfl | rfl | rfl <;>
    exact ⟨by decide, by decide, by decide, by decide⟩

theorem headD_append (a b : List Char) (d : Char) (h : a ≠ []) :
    (a ++ b).headD d = a.headD d := by
  cases a with
  | nil => exact absurd rfl h
  | cons x xs => rfl

theorem getLastD_indep (l : List Char) (x y : Char) (h : l ≠ []) :
    l.getLastD x = l.getLastD y := by
  cases l with
  | nil => exact absurd rfl h
  | cons a t => simp only [List.getLastD_cons]

theorem getLastD_append_right (a b : List Char) (d : Char) (h : b ≠ []) :
    (a ++ b).getLastD d = b.getLastD d := by
  induction a with
  | nil => rfl
  | cons x xs ih =>
    have hne : xs ++ b ≠ [] := List.append_ne_nil_of_right_ne_nil _ h
    calc ((x :: xs) ++ b).getLastD d = (xs ++ b).getLastD x :=
          List.getLastD_cons d x (xs ++ b)
      _ = (xs ++ b).getLastD d := getLastD_indep _ _ _ hne
      _ = b.getLastD d := ih

theorem getLast?_of_ne_nil (l : List Char) (h : l ≠ []) :
    l.getLast? = some (l.getLastD ' ') := by
  cases l with
  | nil => exact absurd rfl h
  | cons a t =>
    rw [List.getLastD_eq_getLast?]
    cases hl : (a :: t).getLast? with
    | none => simp [List.getLast?] at hl
    | some x => rfl

theorem wfLoop_isSome (l : List Char) :
    ∀ d last i, l.getLast? ≠ some '~' → (wfLoop l d last i).isSome := by
  induction l with
  | nil => intro d last i _; simp [wfLoop]
  | cons t rest ih =>
    intro d last i h
    have hrec : ∀ d2 i2, (wfLoop rest d2 t i2).isSome := by
      intro d2 i2
      cases rest with
      | nil => simp [wfLoop]
      | cons r rs =>
        apply ih
        rwa [List.getLast?_cons_cons] at h
    rw [wfLoop]
    split_ifs <;> first | apply hrec | (simp; done) | (subst_vars; simp at h)

theorem wf_total (s : List Char) : ∃ b, is_well_formed s = some b := by
  unfold is_well_formed
  split_ifs with h1 h2 h3
  · exact ⟨false, rfl⟩
  · have hne : tokenize s ≠ [] := by
      rcases not_or.mp h1 with ⟨-, hlen⟩
      intro hnil
      exact hlen (by simp [hnil])
    have hlast : (tokenize s).getLast? = some ((tokenize s).getLastD ' ') :=
      getLast?_of_ne_nil _ hne
    have hns : (tokenize s).getLast? ≠ some '~' := by
      rw [hlast]
      rcases h3 with hv | hp
      · intro hc
        rcases var_facts _ hv with ⟨-, -, hnt, -⟩
        exact hnt (Option.some.inj hc)
      · intro hc
        rw [hp] at hc
        exact absurd (Option.some.inj hc) (by decide)
    rcases Option.isSome_iff_exists.mp (wfLoop_isSome _ 0 ' ' 0 hns) with ⟨b, hb⟩
    exact ⟨b, hb⟩
  · exact ⟨false, rfl⟩
  · exact ⟨false, rfl⟩

/-- Claim C9: for every input string, `is_well_formed` terminates and
returns a boolean without raising an error; in particular the
`tokens[i+1]` look-ahead in the scan (the sole place the model could
produce `none`) never indexes past the end of the token list. -/
theorem C9_thm (s : List Char) : ∃ b, is_well_formed s = some b :=
  wf_total s

theorem WFF.ne_nil (f : List Char) (h : WFF f) : f ≠ [] := by
  induction h with
  | var c hc => simp
  | neg f hf ih => simp
  | paren f hf ih => simp
  | bin f g c hc hf hg ihf ihg => simp

theorem WFF.head_shape (f : List Char) (h : WFF f) :
    isVariable (f.headD ' ') = true ∨ f.headD ' ' = '(' ∨ f.headD ' ' = '~' := by
  induction h with
  | var c hc => exact Or.inl hc
  | neg f hf ih => exact Or.inr (Or.inr rfl)
  | paren f hf ih => exact Or.inr (Or.inl rfl)
  | bin f g c hc hf hg ihf ihg =>
    rwa [headD_append f (c :: g) ' ' (WFF.ne_nil f hf)]

theorem WFF.last_shape (f : List Char) (h : WFF f) :
    isVariable (f.getLastD ' ') = true ∨ f.getLastD ' ' = ')' := by
  induction h with
  | var c hc => exact Or.inl hc
  | neg f hf ih =>
    have he : ('~' :: f).getLastD ' ' = f.getLastD ' ' := by
      rw [List.getLastD_cons]
      exact getLastD_indep _ _ _ (WFF.ne_nil f hf)
    rw [he]; exact ih
  | paren f hf ih =>
    rw [getLastD_append_right ('(' :: f) [')'] ' ' (by simp)]
    exact Or.inr rfl
  | bin f g c hc hf hg ihf ihg =>
    rw [getLastD_append_right f (c :: g) ' ' (by simp), List.getLastD_cons,
      getLastD_indep g c ' ' (WFF.ne_nil g hg)]
    exact ihg

theorem WFF.all_tokens (f : List Char) (h : WFF f) :
    ∀ c ∈ f, isTokenChar c = true := by
  induction h with
  | var c hc =>
    intro x hx
    rcases List.mem_singleton.mp hx with rfl
    simp [isTokenChar, hc]
  | neg f hf ih =>
    intro x hx
    rcases List.mem_cons.mp hx with rfl | hx
    · decide
    · exact ih x hx
  | paren f hf ih =>
    intro x hx
    rcases List.mem_append.mp hx with hx | hx
    · rcases List.mem_cons.mp hx with rfl | hx
      · decide
      · exact ih x hx
    · rcases List.mem_singleton.mp hx with rfl
      decide
  | bin f g c hc hf hg ihf ihg =>
    intro x hx
    rcases List.mem_append.mp hx with hx | hx
    · exact ihf x hx
    · rcases List.mem_cons.mp hx with rfl | hx
      · simp [isTokenChar, hc]
      · exact ihg x hx

theorem wfLoop_step_open (last : Char) (rest : List Char) (d i : Nat) :
    wfLoop ('(' :: rest) d last i = wfLoop rest (d + 1) '(' (i + 1) := by
  simp [wfLoop]

theorem wfLoop_step_var (t last : Char) (rest : List Char) (d i : Nat)
    (ht : isVariable t = true) (hlast : isVariable last = false) :
    wfLoop (t :: rest) d last i = wfLoop rest d t (i + 1) := by
  rcases var_facts t ht with ⟨h1, h2, h3, -⟩
  simp [wfLoop, h1, h2, h3, ht, hlast]

theorem wfLoop_step_op (t last : Char) (rest : List Char) (d i : Nat)
    (ht : isOperator t = true) (h1 : isOperator last = false) (h2 : last ≠ '(') :
    wfLoop (t :: rest) d last i = wfLoop rest d t (i + 1) := by
  rcases op_facts t ht with ⟨k1, k2, k3, k4⟩
  rw [wfLoop]
  rw [if_neg k1, if_neg k2, if_neg k3, if_neg (by simp [k4]), if_pos ht,
    if_neg (by simp [h1, h2])]

theorem wfLoop_step_neg (last : Char) (rest : List Char) (d i : Nat)
    (hok : isOperator last = true ∨ i = 0 ∨ last = '~' ∨ last = '(')
    (hrest : rest ≠ []) :
    wfLoop ('~' :: rest) d last i = wfLoop rest d '~' (i + 1) := by
  by_cases hcond : ¬isOperator last = true ∧ i ≠ 0
  · obtain ⟨n, m, rfl⟩ : ∃ n m, rest = n :: m := by
      cases rest with
      | nil => exact absurd rfl hrest
      | cons n m => exact ⟨n, m, rfl⟩
    have hlast : last = '~' ∨ last = '(' := by
      rcases hok with h | h | h | h
      · exact absurd h hcond.1
      · exact absurd h hcond.2
      · exact Or.inl h
      · exact Or.inr h
    have hinner : ¬(n ≠ '(' ∧ last ≠ '~' ∧ last ≠ '(') := by
      rcases hlast with rfl | rfl <;> simp
    rw [wfLoop]
    rw [if_neg (by decide), if_neg (by decide), if_pos rfl, if_pos hcond,
      if_neg (List.cons_ne_nil n m), List.headD_cons, if_neg hinner]
  · rw [wfLoop]
    rw [if_neg (by decide), if_neg (by decide), if_pos rfl, if_neg hcond]

theorem wfLoop_step_close_nil (last : Char) (d i : Nat)
    (hd : d ≠ 0) (hl : last ≠ '(') :
    wfLoop [')'] d last i = some (d - 1 == 0) := by
  simp [wfLoop, hd, hl]

theorem wfLoop_step_close_cons (last n : Char) (m : List Char) (d i : Nat)
    (hd : d ≠ 0) (hl : last ≠ '(') (hn : isOperator n = true ∨ n = ')') :
    wfLoop (')' :: n :: m) d last i = wfLoop (n :: m) (d - 1) ')' (i + 1) := by
  rw [wfLoop]
  rw [if_neg (by decide), if_pos rfl, if_neg (by simp [hd, hl]),
    List.headD_cons, if_neg (not_not.mpr hn)]

theorem wff_scan (f : List Char) (h : WFF f) :
    ∀ (k : List Char) (d : Nat) (last : Char) (i : Nat),
      (isOperator last = true ∨ last = '(' ∨ last = '~' ∨ (i = 0 ∧ last = ' ')) →
      (k = [] ∨ ∃ n m, k = n :: m ∧ (isOperator n = true ∨ n = ')')) →
      wfLoop (f ++ k) d last i = wfLoop k d (f.getLastD ' ') (i + f.length) := by
  induction h with
  | var c hc =>
    intro k d last i hent _
    have hlast : isVariable last = false := by
      rcases hent with hop | rfl | rfl | ⟨-, rfl⟩
      · exact (op_facts last hop).2.2.2
      · decide
      · decide
      · decide
    rw [List.singleton_append, wfLoop_step_var c last k d i hc hlast]
    rfl
  | neg f hf ih =>
    intro k d last i hent hext
    have hfk : f ++ k ≠ [] :=
      fun hc => (WFF.ne_nil f hf) (List.append_eq_nil.mp hc).1
    have hok : isOperator last = true ∨ i = 0 ∨ last = '~' ∨ last = '(' := by
      rcases hent with hop | rfl | rfl | ⟨hi, -⟩
      · exact Or.inl hop
      · exact Or.inr (Or.inr (Or.inr rfl))
      · exact Or.inr (Or.inr (Or.inl rfl))
      · exact Or.inr (Or.inl hi)
    rw [List.cons_append, wfLoop_step_neg last (f ++ k) d i hok hfk,
      ih k d '~' (i + 1) (Or.inr (Or.inr (Or.inl rfl))) hext]
    have harith : i + 1 + f.length = i + ('~' :: f).length := by
      simp [List.length_cons]; omega
    rw [harith, List.getLastD_cons, getLastD_indep f '~' ' ' (WFF.ne_nil f hf)]
  | paren f hf ih =>
    intro k d last i hent hext
    have hfne := WFF.ne_nil f hf
    have hlast := WFF.last_shape f hf
    have hlne : f.getLastD ' ' ≠ '(' := by
      rcases hlast with hv | hp
      · exact (var_facts _ hv).1
      · rw [hp]; decide
    have hL : (('(' :: f) ++ [')']) ++ k = '(' :: (f ++ (')' :: k)) := by
      simp
    rw [hL, wfLoop_step_open last (f ++ (')' :: k)) d i,
      ih (')' :: k) (d + 1) '(' (i + 1) (Or.inr (Or.inl rfl))
        (Or.inr ⟨')', k, rfl, Or.inr rfl⟩)]
    have hlastp : (('(' :: f) ++ [')']).getLastD ' ' = ')' :=
      getLastD_append_right ('(' :: f) [')'] ' ' (by simp)
    rw [hlastp]
    rcases hext with rfl | ⟨n, m, rfl, hn⟩
    · rw [wfLoop_step_close_nil (f.getLastD ' ') (d + 1) (i + 1 + f.length)
        (Nat.succ_ne_zero d) hlne]
      simp [wfLoop, List.length_append]
    · rw [wfLoop_step_close_cons (f.getLastD ' ') n m (d + 1) (i + 1 + f.length)
        (Nat.succ_ne_zero d) hlne hn]
      have harith : i + 1 + f.length + 1 = i + (('(' :: f) ++ [')']).length := by
        simp [List.length_append]; omega
      rw [harith]
      simp
  | bin f g c hc hf hg ihf ihg =>
    intro k d last i hent hext
    have hlf := WFF.last_shape f hf
    have hlf1 : isOperator (f.getLastD ' ') = false := by
      rcases hlf with hv | hp
      · exact (var_facts _ hv).2.2.2
      · rw [hp]; decide
    have hlf2 : f.getLastD ' ' ≠ '(' := by
      rcases hlf with hv | hp
      · exact (var_facts _ hv).1
      · rw [hp]; decide
    have hL : (f ++ c :: g) ++ k = f ++ (c :: (g ++ k)) := by
      simp
    rw [hL, ihf (c :: (g ++ k)) d last i hent
        (Or.inr ⟨c, g ++ k, rfl, Or.inl hc⟩),
      wfLoop_step_op c (f.getLastD ' ') (g ++ k) d (i + f.length) hc hlf1 hlf2,
      ihg k d c (i + f.length + 1) (Or.inl hc) hext]
    have harith : i + f.length + 1 + g.length = i + (f ++ c :: g).length := by
      simp [List.length_append, List.length_cons]; omega
    rw [harith, getLastD_append_right f (c :: g) ' ' (by simp),
      List.getLastD_cons, getLastD_indep g c ' ' (WFF.ne_nil g hg)]

/-- Claim C1 (amended): every string generated by the reference
grammar `WFF` is accepted by `is_well_formed`; the converse inclusion
claimed by the spec is refuted by `C1_cex`. -/
theorem C1_thm (s : List Char) (h : WFF s) : is_well_formed s = some true := by
  have htok : tokenize s = s := List.filter_eq_self.mpr (WFF.all_tokens s h)
  have hne := WFF.ne_nil s h
  have hhead := WFF.head_shape s h
  have hlast := WFF.last_shape s h
  unfold is_well_formed
  rw [htok]
  rw [if_neg (by simp [Nat.lt_one_iff, List.length_eq_zero, hne]),
    if_neg (not_not.mpr hhead), if_neg (not_not.mpr hlast)]
  have hrun := wff_scan s h [] 0 ' ' 0
    (Or.inr (Or.inr (Or.inr ⟨rfl, rfl⟩))) (Or.inl rfl)
  rw [List.append_nil] at hrun
  rw [hrun]
  simp [wfLoop]

/-- Claim C1 witness: the grammar derivation of `A&B` and its
acceptance. -/
theorem C1_wit :
    WFF ("A&B".toList) ∧ is_well_formed ("A&B".toList) = some true := by
  have he : ("A&B".toList) = ['A'] ++ '&' :: ['B'] := rfl
  have hw : WFF ("A&B".toList) := by
    rw [he]
    exact WFF.bin ['A'] ['B'] '&' (by decide)
      (WFF.var 'A' (by decide)) (WFF.var 'B' (by decide))
  exact ⟨hw, C1_thm _ hw⟩

/-- Claim C1 counterexample: `A(B)` — a Variable directly followed by
a parenthesized group with no operator between them — is accepted by
`is_well_formed` but is not a well-formed formula of the reference
grammar, so the claimed "if and only if" fails. -/
theorem C1_cex :
    is_well_formed ("A(B)".toList) = some true ∧ ¬WFF ("A(B)".toList) := by
  refine ⟨by decide, fun h => ?_⟩
  have hL : ("A(B)".toList) = ['A', '(', 'B', ')'] := rfl
  rw [hL] at h
  have key : ∀ (l : List Char), WFF l → l ≠ ['A', '(', 'B', ')'] := by
    intro l hl
    induction hl with
    | var c hc => intro he; simp at he
    | neg f hf ih => intro he; simp at he
    | paren f hf ih => intro he; simp at he
    | bin f g c hc hf hg ihf ihg =>
      intro he
      have hm : c ∈ ['A', '(', 'B', ')'] := by
        rw [← he]
        exact List.mem_append_right f (List.mem_cons_self c g)
      simp only [List.mem_cons, List.not_mem_nil, or_false] at hm
      rcases hm with rfl | rfl | rfl | rfl <;> exact absurd hc (by decide)
  exact key _ h rfl

/-- Claim C10: `is_well_formed` accepts `A(B)`: the OpenParen case of
the scan only pushes the paren stack and no rule rejects an OpenParen
immediately preceded by a Variable. -/
theorem C10_thm : is_well_formed ("A(B)".toList) = some true := by decide

/-- Claim C2 (code bug): `~~A` is accepted by `is_well_formed` and the
assignment `tvA` maps its only variable, yet `evaluate_statement`
raises (modelled `none`): the postfix-reorder phase pops an equal-
precedence `~` before its operand, producing the postfix `~A~` whose
value-stack phase pops an empty stack. -/
theorem C2_thm :
    is_well_formed ("~~A".toList) = some true ∧
    shunt (tokenize ("~~A".toList)) [] [] = some ("~A~".toList) ∧
    evaluate_statement ("~~A".toList) tvA = none := by decide

/-- Claim C3 (code bug): the claim's own example
`check_validity(["A>B", "A"], "B") = true` holds, but the claimed
"if and only if" fails on the well-formed premises `["~~A"]` with
conclusion `A`, where the checker propagates the evaluator's
empty-stack error (modelled `none`) instead of returning a boolean. -/
theorem C3_thm :
    check_validity [("A>B".toList), ("A".toList)] ("B".toList) = some true ∧
    is_well_formed ("~~A".toList) = some true ∧
    is_well_formed ("A".toList) = some true ∧
    check_validity [("~~A".toList)] ("A".toList) = none := by decide

/-- Claim C4: the value-stack phase pops the right operand before the
left and computes `&` as AND, `+` as OR, `>` as (NOT left) OR right,
`^` as ≠, `=` as =; plus the three concrete evaluations. -/
theorem C4_thm (tv : Char → Option Bool) (rest : List Char) (a b : Bool)
    (s : List Bool) (hAnd : tv '&' = none) (hOr : tv '+' = none)
    (hImp : tv '>' = none) (hXor : tv '^' = none) (hIff : tv '=' = none) :
    evalLoop tv ('&' :: rest) (b :: a :: s) = evalLoop tv rest ((a && b) :: s) ∧
    evalLoop tv ('+' :: rest) (b :: a :: s) = evalLoop tv rest ((a || b) :: s) ∧
    evalLoop tv ('>' :: rest) (b :: a :: s) =
      evalLoop tv rest (((!a) || b) :: s) ∧
    evalLoop tv ('^' :: rest) (b :: a :: s) = evalLoop tv rest ((a != b) :: s) ∧
    evalLoop tv ('=' :: rest) (b :: a :: s) = evalLoop tv rest ((a == b) :: s) ∧
    evaluate_statement ("A>(B&C)".toList) tvABC = some false ∧
    evaluate_statement ("A^B".toList) tvABtt = some false ∧
    evaluate_statement ("A=B".toList) tvABff = some true := by
  refine ⟨?_, ?_, ?_, ?_, ?_, by decide, by decide, by decide⟩
  · rw [evalLoop, hAnd]; rfl
  · rw [evalLoop, hOr]; rfl
  · rw [evalLoop, hImp]; rfl
  · rw [evalLoop, hXor]; rfl
  · rw [evalLoop, hIff]; rfl

/-- Claim C4 witness: the step equations applied at the all-`none`
assignment with stack top `false` over `true`, and the concrete
evaluations. -/
theorem C4_wit :
    evalLoop (fun _ => none) ['&'] [false, true] =
      evalLoop (fun _ => none) [] [true && false] ∧
    evalLoop (fun _ => none) ['+'] [false, true] =
      evalLoop (fun _ => none) [] [true || false] ∧
    evalLoop (fun _ => none) ['>'] [false, true] =
      evalLoop (fun _ => none) [] [(!true) || false] ∧
    evalLoop (fun _ => none) ['^'] [false, true] =
      evalLoop (fun _ => none) [] [true != false] ∧
    evalLoop (fun _ => none) ['='] [false, true] =
      evalLoop (fun _ => none) [] [true == false] ∧
    evaluate_statement ("A>(B&C)".toList) tvABC = some false ∧
    evaluate_statement ("A^B".toList) tvABtt = some false ∧
    evaluate_statement ("A=B".toList) tvABff = some true :=
  C4_thm (fun _ => none) [] true false [] rfl rfl rfl rfl rfl

/-- Claim C5 counterexample: `~~A` is well-formed, and the precedence
table groups it as `~(~A)`, which is `true` when `A ↦ true`; but
`evaluate_statement` does not produce that value (it raises, modelled
`none`), because the pop rule treats `~` as left-associative. -/
theorem C5_cex :
    is_well_formed ("~~A".toList) = some true ∧
    evaluate_statement ("~~A".toList) tvA ≠ some true := by decide

theorem shunt_step_var (v : Char) (hv : isVariable v = true)
    (rest out ops : List Char) :
    shunt (v :: rest) out ops = shunt rest (out ++ [v]) ops := by
  rw [shunt, if_pos hv]

theorem shunt_step_open (rest out ops : List Char) :
    shunt ('(' :: rest) out ops = shunt rest out ('(' :: ops) := by
  rw [shunt]
  rw [if_neg (by decide), if_pos rfl]

theorem shunt_step_close (rest out ops o2 p2 : List Char)
    (hpop : popToParen out ops = some (o2, p2)) :
    shunt (')' :: rest) out ops = shunt rest o2 p2 := by
  rw [shunt]
  rw [if_neg (by decide), if_neg (by decide), if_pos rfl, hpop]

theorem shunt_step_operator (t : Char) (hv : isVariable t = false)
    (hh1 : t ≠ '(') (hh2 : t ≠ ')') (rest out ops : List Char) :
    shunt (t :: rest) out ops =
      shunt rest (popGE t out ops).1 (t :: (popGE t out ops).2) := by
  rw [shunt]
  rw [if_neg (by simp [hv]), if_neg hh1, if_neg hh2]

theorem popGE_noop (t : Char) (out ops : List Char)
    (h : ops = [] ∨ precedence (ops.headD ' ') < precedence t) :
    popGE t out ops = (out, ops) := by
  cases ops with
  | nil => rfl
  | cons o os =>
    rcases h with h | h
    · exact (List.cons_ne_nil o os h).elim
    · rw [List.headD_cons] at h
      rw [popGE, if_neg (not_le.mpr h)]

theorem popGE_through (t : Char) (pend : List Char) :
    ∀ (out ops : List Char),
      (∀ p ∈ pend, precedence t ≤ precedence p) →
      (ops = [] ∨ precedence (ops.headD ' ') < precedence t) →
      popGE t out (pend ++ ops) = (out ++ pend, ops) := by
  induction pend with
  | nil =>
    intro out ops _ h
    simpa using popGE_noop t out ops h
  | cons p ps ih =>
    intro out ops hp h
    have hple : precedence t ≤ precedence p := hp p (List.mem_cons_self p ps)
    rw [List.cons_append, popGE, if_pos hple,
      ih (out ++ [p]) ops (fun q hq => hp q (List.mem_cons_of_mem p hq)) h]
    simp

theorem shunt_step_op_noop (t : Char) (hv : isVariable t = false)
    (hh1 : t ≠ '(') (hh2 : t ≠ ')') (rest out ops : List Char)
    (h : ops = [] ∨ precedence (ops.headD ' ') < precedence t) :
    shunt (t :: rest) out ops = shunt rest out (t :: ops) := by
  rw [shunt_step_operator t hv hh1 hh2 rest out ops, popGE_noop t out ops h]

theorem shunt_step_op_through (t : Char) (hv : isVariable t = false)
    (hh1 : t ≠ '(') (hh2 : t ≠ ')') (rest out pend ops : List Char)
    (hp : ∀ p ∈ pend, precedence t ≤ precedence p)
    (h : ops = [] ∨ precedence (ops.headD ' ') < precedence t) :
    shunt (t :: rest) out (pend ++ ops) = shunt rest (out ++ pend) (t :: ops) := by
  rw [shunt_step_operator t hv hh1 hh2 rest out (pend ++ ops),
    popGE_through t pend out ops hp h]

theorem popToParen_through (pend : List Char) :
    ∀ (out ops : List Char), (∀ p ∈ pend, p ≠ '(') →
      popToParen out (pend ++ '(' :: ops) = some (out ++ pend, ops) := by
  induction pend with
  | nil =>
    intro out ops _
    rw [List.nil_append, popToParen, if_pos rfl]
    simp
  | cons p ps ih =>
    intro out ops hp
    rw [List.cons_append, popToParen,
      if_neg (hp p (List.mem_cons_self p ps)),
      ih (out ++ [p]) ops (fun q hq => hp q (List.mem_cons_of_mem p hq))]
    simp

theorem evalLoop_cons (tvo : Char → Option Bool) (t : Char) (rest : List Char)
    (stack : List Bool) :
    evalLoop tvo (t :: rest) stack =
      match tvo t with
      | some v => evalLoop tvo rest (v :: stack)
      | none =>
        if t = '~' then
          match stack with
          | [] => none
          | a :: s => evalLoop tvo rest ((!a) :: s)
        else if t = '&' ∨ t = '+' ∨ t = '>' ∨ t = '^' ∨ t = '=' then
          match stack with
          | b :: a :: s =>
            evalLoop tvo rest
              ((if t = '&' then a && b
                else if t = '+' then a || b
                else if t = '>' then !a || b
                else if t = '^' then a != b
                else a == b) :: s)
          | _ => none
        else evalLoop tvo rest stack := rfl

theorem evalLoop_append_some (tvo : Char → Option Bool) (xs : List Char) :
    ∀ (ys : List Char) (vs vs2 : List Bool),
      evalLoop tvo xs vs = some vs2 →
      evalLoop tvo (xs ++ ys) vs = evalLoop tvo ys vs2 := by
  induction xs with
  | nil =>
    intro ys vs vs2 h
    have hv : vs = vs2 := by simpa [evalLoop] using h
    rw [List.nil_append, hv]
  | cons t xs ih =>
    intro ys vs vs2 h
    rw [List.cons_append, evalLoop_cons]
    rw [evalLoop_cons] at h
    cases htv : tvo t with
    | some v =>
      simp only [htv] at h ⊢
      exact ih ys (v :: vs) vs2 h
    | none =>
      simp only [htv] at h ⊢
      by_cases ht : t = '~'
      · rw [if_pos ht] at h ⊢
        cases vs with
        | nil => simp at h
        | cons a s => exact ih ys ((!a) :: s) vs2 h
      · rw [if_neg ht] at h ⊢
        by_cases hop : t = '&' ∨ t = '+' ∨ t = '>' ∨ t = '^' ∨ t = '='
        · rw [if_pos hop] at h ⊢
          cases vs with
          | nil => simp at h
          | cons b vs1 =>
            cases vs1 with
            | nil => simp at h
            | cons a s => exact ih ys _ vs2 h
        · rw [if_neg hop] at h ⊢
          exact ih ys vs vs2 h

theorem evalLoop_push (tvo : Char → Option Bool) (v : Char) (x : Bool)
    (hx : tvo v = some x) (rest : List Char) (vs : List Bool) :
    evalLoop tvo (v :: rest) vs = evalLoop tvo rest (x :: vs) := by
  rw [evalLoop_cons]
  simp only [hx]

theorem evalLoop_neg_step (tvo : Char → Option Bool) (hn : tvo '~' = none)
    (rest : List Char) (a : Bool) (vs : List Bool) :
    evalLoop tvo ('~' :: rest) (a :: vs) = evalLoop tvo rest ((!a) :: vs) := by
  rw [evalLoop_cons]
  simp [hn]

theorem evalLoop_binop_step (tvo : Char → Option Bool) (c : Char)
    (hc : c = '&' ∨ c = '+' ∨ c = '>' ∨ c = '^' ∨ c = '=')
    (hn : tvo c = none) (rest : List Char) (a b : Bool) (vs : List Bool) :
    evalLoop tvo (c :: rest) (b :: a :: vs) =
      evalLoop tvo rest
        ((if c = '&' then a && b else if c = '+' then a || b
          else if c = '>' then (!a) || b else if c = '^' then a != b
          else a == b) :: vs) := by
  rcases hc with rfl | rfl | rfl | rfl | rfl <;> (rw [evalLoop_cons]; simp [hn])

theorem precedence_lt_four (c : Char) : precedence c < 4 := by
  unfold precedence
  split_ifs <;> omega

theorem prec_nonneg_ne_paren (c : Char) (h : (0 : Int) ≤ precedence c) :
    c ≠ '(' := by
  intro he
  rw [he] at h
  exact absurd h (by decide)

theorem GrpL.token_chars (tv : Char → Bool) (l : Nat) (f : List Char) (b : Bool)
    (h : GrpL tv l f b) : ∀ c ∈ f, isTokenChar c = true := by
  induction h with
  | var v hv =>
    intro x hx
    rcases List.mem_singleton.mp hx with rfl
    simp [isTokenChar, hv]
  | paren f b hf ih =>
    intro x hx
    rcases List.mem_append.mp hx with hx | hx
    · rcases List.mem_cons.mp hx with rfl | hx
      · decide
      · exact ih x hx
    · rcases List.mem_singleton.mp hx with rfl
      decide
  | lift l f b hf ih => exact ih
  | neg f b hf ih =>
    intro x hx
    rcases List.mem_cons.mp hx with rfl | hx
    · decide
    · exact ih x hx
  | conj f g a b hf hg ihf ihg =>
    intro x hx
    rcases List.mem_append.mp hx with hx | hx
    · exact ihf x hx
    · rcases List.mem_cons.mp hx with rfl | hx
      · decide
      · exact ihg x hx
  | disj f g a b hf hg ihf ihg =>
    intro x hx
    rcases List.mem_append.mp hx with hx | hx
    · exact ihf x hx
    · rcases List.mem_cons.mp hx with rfl | hx
      · decide
      · exact ihg x hx
  | bot f g c a b hc hf hg ihf ihg =>
    intro x hx
    rcases List.mem_append.mp hx with hx | hx
    · exact ihf x hx
    · rcases List.mem_cons.mp hx with rfl | hx
      · rcases hc with rfl | rfl | rfl <;> decide
      · exact ihg x hx

theorem shunt_grouped (tv : Char → Bool) (tvo : Char → Option Bool)
    (h1 : ∀ ch, isVariable ch = true → tvo ch = some (tv ch))
    (h2 : ∀ ch, isVariable ch = false → tvo ch = none)
    (l : Nat) (f : List Char) (b : Bool) (hg : GrpL tv l f b) :
    ∀ (k out ops : List Char),
      (ops = [] ∨ precedence (ops.headD ' ') < (l : Int)) →
      ∃ body pend : List Char,
        shunt (f ++ k) out ops = shunt k (out ++ body) (pend ++ ops) ∧
        (∀ p ∈ pend, (l : Int) ≤ precedence p) ∧
        (∀ vs : List Bool, evalLoop tvo (body ++ pend) vs = some (b :: vs)) := by
  induction hg with
  | var v hv =>
    intro k out ops _
    refine ⟨[v], [], ?_, ?_, ?_⟩
    · rw [List.singleton_append, shunt_step_var v hv k out ops, List.nil_append]
    · intro p hp
      simp at hp
    · intro vs
      simp only [List.append_nil]
      rw [evalLoop_push tvo v (tv v) (h1 v hv) [] vs]
      rfl
  | paren f b hf ih =>
    intro k out ops _
    obtain ⟨bg, pg, he, hp, hs⟩ := ih (')' :: k) out ('(' :: ops)
      (Or.inr (by rw [List.headD_cons]; decide))
    refine ⟨bg ++ pg, [], ?_, ?_, ?_⟩
    · have hLL : (('(' :: f) ++ [')']) ++ k = '(' :: (f ++ (')' :: k)) := by
        simp
      rw [hLL, shunt_step_open, he]
      have hne : ∀ p ∈ pg, p ≠ '(' := by
        intro p hpp
        have h0 := hp p hpp
        apply prec_nonneg_ne_paren
        push_cast at h0
        omega
      rw [List.nil_append, shunt_step_close k (out ++ bg) (pg ++ '(' :: ops)
        (out ++ bg ++ pg) ops (popToParen_through pg (out ++ bg) ops hne)]
      simp [List.append_assoc]
    · intro p hpp
      simp at hpp
    · intro vs
      simp only [List.append_nil]
      exact hs vs
  | lift l f b hf ih =>
    intro k out ops hops
    have hops2 : ops = [] ∨ precedence (ops.headD ' ') < ((l + 1 : Nat) : Int) := by
      rcases hops with h | h
      · exact Or.inl h
      · right
        push_cast at h ⊢
        omega
    obtain ⟨body, pend, he, hp, hs⟩ := ih k out ops hops2
    refine ⟨body, pend, he, ?_, hs⟩
    intro p hpp
    have := hp p hpp
    push_cast at this ⊢
    omega
  | neg f b hf ih =>
    intro k out ops hops
    have hstep : shunt ('~' :: (f ++ k)) out ops = shunt (f ++ k) out ('~' :: ops) := by
      apply shunt_step_op_noop '~' (by decide) (by decide) (by decide)
      rcases hops with h | h
      · exact Or.inl h
      · right
        rw [show precedence '~' = 3 from by decide]
        push_cast at h
        omega
    obtain ⟨bg, pg, he, hp, hs⟩ := ih k out ('~' :: ops)
      (Or.inr (by rw [List.headD_cons]; decide))
    have hpg : pg = [] := by
      cases pg with
      | nil => rfl
      | cons q qs =>
        have h4 := hp q (List.mem_cons_self q qs)
        have h5 := precedence_lt_four q
        push_cast at h4
        omega
    subst hpg
    refine ⟨bg, ['~'], ?_, ?_, ?_⟩
    · rw [List.cons_append, hstep, he]
      simp
    · intro p hpp
      rcases List.mem_singleton.mp hpp with rfl
      push_cast
      decide
    · intro vs
      have hnn : tvo '~' = none := h2 '~' (by decide)
      simp only [List.append_nil] at hs
      calc evalLoop tvo (bg ++ ['~']) vs
          = evalLoop tvo ['~'] (b :: vs) :=
            evalLoop_append_some tvo bg ['~'] vs (b :: vs) (hs vs)
        _ = evalLoop tvo [] ((!b) :: vs) := evalLoop_neg_step tvo hnn [] b vs
        _ = some ((!b) :: vs) := rfl
  | conj f g a b hf hg2 ihf ihg =>
    intro k out ops hops
    have hops2 : ops = [] ∨ precedence (ops.headD ' ') < precedence '&' := by
      rcases hops with h | h
      · exact Or.inl h
      · right
        rw [show precedence '&' = 2 from by decide]
        push_cast at h
        omega
    obtain ⟨bf, pf, hef, hpf, hsf⟩ := ihf ('&' :: (g ++ k)) out ops hops
    obtain ⟨bg, pg, heg, hpg, hsg⟩ := ihg k (out ++ bf ++ pf) ('&' :: ops)
      (Or.inr (by rw [List.headD_cons]; decide))
    refine ⟨bf ++ pf ++ bg, pg ++ ['&'], ?_, ?_, ?_⟩
    · have hL : (f ++ '&' :: g) ++ k = f ++ ('&' :: (g ++ k)) := by simp
      rw [hL, hef,
        shunt_step_op_through '&' (by decide) (by decide) (by decide) (g ++ k)
          (out ++ bf) pf ops
          (fun p hpp => by
            have := hpf p hpp
            rw [show precedence '&' = 2 from by decide]
            push_cast at this
            omega)
          hops2,
        heg]
      simp [List.append_assoc]
    · intro p hpp
      rcases List.mem_append.mp hpp with hpp | hpp
      · have := hpg p hpp
        push_cast at this ⊢
        omega
      · rcases List.mem_singleton.mp hpp with rfl
        push_cast
        decide
    · intro vs
      have hnn : tvo '&' = none := h2 '&' (by decide)
      calc evalLoop tvo ((bf ++ pf ++ bg) ++ (pg ++ ['&'])) vs
          = evalLoop tvo ((bf ++ pf) ++ ((bg ++ pg) ++ ['&'])) vs := by
            simp [List.append_assoc]
        _ = evalLoop tvo ((bg ++ pg) ++ ['&']) (a :: vs) :=
            evalLoop_append_some tvo (bf ++ pf) _ vs (a :: vs) (hsf vs)
        _ = evalLoop tvo ['&'] (b :: a :: vs) :=
            evalLoop_append_some tvo (bg ++ pg) _ (a :: vs) (b :: a :: vs)
              (hsg (a :: vs))
        _ = some ((a && b) :: vs) := by
            rw [evalLoop_binop_step tvo '&' (Or.inl rfl) hnn [] a b vs]
            rfl
  | disj f g a b hf hg2 ihf ihg =>
    intro k out ops hops
    have hops2 : ops = [] ∨ precedence (ops.headD ' ') < precedence '+' := by
      rcases hops with h | h
      · exact Or.inl h
      · right
        rw [show precedence '+' = 1 from by decide]
        push_cast at h
        omega
    obtain ⟨bf, pf, hef, hpf, hsf⟩ := ihf ('+' :: (g ++ k)) out ops hops
    obtain ⟨bg, pg, heg, hpg, hsg⟩ := ihg k (out ++ bf ++ pf) ('+' :: ops)
      (Or.inr (by rw [List.headD_cons]; decide))
    refine ⟨bf ++ pf ++ bg, pg ++ ['+'], ?_, ?_, ?_⟩
    · have hL : (f ++ '+' :: g) ++ k = f ++ ('+' :: (g ++ k)) := by simp
      rw [hL, hef,
        shunt_step_op_through '+' (by decide) (by decide) (by decide) (g ++ k)
          (out ++ bf) pf ops
          (fun p hpp => by
            have := hpf p hpp
            rw [show precedence '+' = 1 from by decide]
            push_cast at this
            omega)
          hops2,
        heg]
      simp [List.append_assoc]
    · intro p hpp
      rcases List.mem_append.mp hpp with hpp | hpp
      · have := hpg p hpp
        push_cast at this ⊢
        omega
      · rcases List.mem_singleton.mp hpp with rfl
        push_cast
        decide
    · intro vs
      have hnn : tvo '+' = none := h2 '+' (by decide)
      calc evalLoop tvo ((bf ++ pf ++ bg) ++ (pg ++ ['+'])) vs
          = evalLoop tvo ((bf ++ pf) ++ ((bg ++ pg) ++ ['+'])) vs := by
            simp [List.append_assoc]
        _ = evalLoop tvo ((bg ++ pg) ++ ['+']) (a :: vs) :=
            evalLoop_append_some tvo (bf ++ pf) _ vs (a :: vs) (hsf vs)
        _ = evalLoop tvo ['+'] (b :: a :: vs) :=
            evalLoop_append_some tvo (bg ++ pg) _ (a :: vs) (b :: a :: vs)
              (hsg (a :: vs))
        _ = some ((a || b) :: vs) := by
            rw [evalLoop_binop_step tvo '+' (Or.inr (Or.inl rfl)) hnn [] a b vs]
            rfl
  | bot f g c a b hc hf hg2 ihf ihg =>
    intro k out ops hops
    have hprec : precedence c = 0 := by
      rcases hc with rfl | rfl | rfl <;> decide
    have hvar : isVariable c = false := by
      rcases hc with rfl | rfl | rfl <;> decide
    have hop1 : c ≠ '(' := by
      rcases hc with rfl | rfl | rfl <;> decide
    have hop2 : c ≠ ')' := by
      rcases hc with rfl | rfl | rfl <;> decide
    have hops2 : ops = [] ∨ precedence (ops.headD ' ') < precedence c := by
      rcases hops with h | h
      · exact Or.inl h
      · right
        rw [hprec]
        push_cast at h
        omega
    obtain ⟨bf, pf, hef, hpf, hsf⟩ := ihf (c :: (g ++ k)) out ops hops
    obtain ⟨bg, pg, heg, hpg, hsg⟩ := ihg k (out ++ bf ++ pf) (c :: ops)
      (Or.inr (by rw [List.headD_cons, hprec]; decide))
    refine ⟨bf ++ pf ++ bg, pg ++ [c], ?_, ?_, ?_⟩
    · have hL : (f ++ c :: g) ++ k = f ++ (c :: (g ++ k)) := by simp
      rw [hL, hef,
        shunt_step_op_through c hvar hop1 hop2 (g ++ k) (out ++ bf) pf ops
          (fun p hpp => by
            have := hpf p hpp
            rw [hprec]
            push_cast at this
            omega)
          hops2,
        heg]
      simp [List.append_assoc]
    · intro p hpp
      rcases List.mem_append.mp hpp with hpp | hpp
      · have := hpg p hpp
        push_cast at this ⊢
        omega
      · rcases List.mem_singleton.mp hpp with rfl
        rw [hprec]
        simp
    · intro vs
      have hnn : tvo c = none := h2 c hvar
      have hc5 : c = '&' ∨ c = '+' ∨ c = '>' ∨ c = '^' ∨ c = '=' := by
        rcases hc with rfl | rfl | rfl
        · exact Or.inr (Or.inr (Or.inl rfl))
        · exact Or.inr (Or.inr (Or.inr (Or.inl rfl)))
        · exact Or.inr (Or.inr (Or.inr (Or.inr rfl)))
      calc evalLoop tvo ((bf ++ pf ++ bg) ++ (pg ++ [c])) vs
          = evalLoop tvo ((bf ++ pf) ++ ((bg ++ pg) ++ [c])) vs := by
            simp [List.append_assoc]
        _ = evalLoop tvo ((bg ++ pg) ++ [c]) (a :: vs) :=
            evalLoop_append_some tvo (bf ++ pf) _ vs (a :: vs) (hsf vs)
        _ = evalLoop tvo [c] (b :: a :: vs) :=
            evalLoop_append_some tvo (bg ++ pg) _ (a :: vs) (b :: a :: vs)
              (hsg (a :: vs))
        _ = some (opSem c a b :: vs) := by
            rw [evalLoop_binop_step tvo c hc5 hnn [] a b vs]
            rcases hc with rfl | rfl | rfl <;> simp [opSem, evalLoop]

/-- Claim C5 (amended): for every formula grouped by the claimed
precedence table — Negation > Conjunction > Disjunction >
{Implication, ExclusiveOr, Biconditional} at one shared left-
associated level, parentheses only delimiting, negation applied to a
variable or parenthesized group (no directly nested negation) —
`evaluate_statement` returns exactly the table-grouped truth value,
under every assignment defined on the variables; in particular under
any assignment `A^B&C+D>E` evaluates as `((A^((B&C)+D))>E)` and
`A=B=C` as `((A=B)=C)`.  For directly nested negation the pop rule
deviates from the table (see the counterexample). -/
theorem C5_thm (tv : Char → Bool) (tvo : Char → Option Bool)
    (s : List Char) (bv : Bool) (a b c d e : Bool)
    (hg : GrpL tv 0 s bv)
    (h1 : ∀ ch, isVariable ch = true → tvo ch = some (tv ch))
    (h2 : ∀ ch, isVariable ch = false → tvo ch = none) :
    evaluate_statement s tvo = some bv ∧
    evaluate_statement ("A^B&C+D>E".toList) (tv5 a b c d e) =
      some ((!(a != ((b && c) || d))) || e) ∧
    evaluate_statement ("A=B=C".toList) (tv3 a b c) =
      some ((a == b) == c) := by
  refine ⟨?_, ?_, ?_⟩
  · have htok : tokenize s = s :=
      List.filter_eq_self.mpr (GrpL.token_chars tv 0 s bv hg)
    obtain ⟨body, pend, he, hp, hs⟩ :=
      shunt_grouped tv tvo h1 h2 0 s bv hg [] [] [] (Or.inl rfl)
    rw [List.append_nil] at he
    have hsh : shunt [] ([] ++ body) (pend ++ []) = some (body ++ pend) := by
      simp [shunt]
    have heval : evaluate_statement s tvo = eval_tokens tvo (body ++ pend) := by
      unfold evaluate_statement
      rw [htok, he, hsh]
    rw [heval]
    unfold eval_tokens
    rw [hs []]
  · cases a <;> cases b <;> cases c <;> cases d <;> cases e <;> decide
  · cases a <;> cases b <;> cases c <;> decide

/-- Claim C5 witness: the table-grouped formula `~A&B` — negation
binding tighter than conjunction, so grouped `(~A)&B` — evaluated
under the assignment `tv0` (`A ↦ true`, others false), plus the two
example formulas at one concrete assignment. -/
theorem C5_wit :
    evaluate_statement ("~A&B".toList) tvo0 = some false ∧
    evaluate_statement ("A^B&C+D>E".toList) (tv5 true true false true false) =
      some ((!(true != ((true && false) || true))) || false) ∧
    evaluate_statement ("A=B=C".toList) (tv3 true true false) =
      some ((true == true) == false) := by
  have d1 : GrpL tv0 4 ['A'] (tv0 'A') := GrpL.var 'A' (by decide)
  have d2 : GrpL tv0 3 ('~' :: ['A']) (!(tv0 'A')) := GrpL.neg ['A'] (tv0 'A') d1
  have d3 : GrpL tv0 2 ['~', 'A'] (!(tv0 'A')) := GrpL.lift 2 _ _ d2
  have d4 : GrpL tv0 4 ['B'] (tv0 'B') := GrpL.var 'B' (by decide)
  have d5 : GrpL tv0 3 ['B'] (tv0 'B') := GrpL.lift 3 _ _ d4
  have d6 : GrpL tv0 2 (['~', 'A'] ++ '&' :: ['B']) ((!(tv0 'A')) && tv0 'B') :=
    GrpL.conj ['~', 'A'] ['B'] (!(tv0 'A')) (tv0 'B') d3 d5
  have d7 : GrpL tv0 0 ("~A&B".toList) false := by
    have hval : ((!(tv0 'A')) && tv0 'B') = false := by decide
    have hlist : ("~A&B".toList) = ['~', 'A'] ++ '&' :: ['B'] := rfl
    rw [hlist, ← hval]
    exact GrpL.lift 0 _ _ (GrpL.lift 1 _ _ d6)
  exact C5_thm tv0 tvo0 ("~A&B".toList) false true true false true false d7
    (fun ch hc => by simp [tvo0, hc]) (fun ch hc => by simp [tvo0, hc])

/-- Claim C6 counterexample: the premises `["A","~A"]` are jointly
unsatisfiable (on every enumerated total assignment of the argument's
variables their conjunction evaluates false) and the conclusion `~~B`
is well-formed, yet `check_validity` does not return true: the row
loop evaluates the conclusion unconditionally and propagates its
empty-stack error (modelled `none`). -/
theorem C6_cex :
    (∀ a ∈ generate_truth_table
        (variablesOf [("A".toList), ("~A".toList), ("~~B".toList)]),
      all_eval (tvOf a) [("A".toList), ("~A".toList)] = some false) ∧
    is_well_formed ("~~B".toList) = some true ∧
    check_validity [("A".toList), ("~A".toList)] ("~~B".toList) ≠ some true := by
  decide

theorem check_rows_nil_prem (c : List Char)
    (rows : List (List (Char × Bool))) :
    check_rows [] c rows = some true ↔
      ∀ a ∈ rows, evaluate_statement c (tvOf a) = some true := by
  induction rows with
  | nil => simp [check_rows]
  | cons a rest ih =>
    cases hc : evaluate_statement c (tvOf a) with
    | none => simp [check_rows, all_eval, hc]
    | some ct =>
      cases ct with
      | false => simp [check_rows, all_eval, hc]
      | true => simp [check_rows, all_eval, hc, ih]

theorem check_rows_unsat (ps : List (List Char)) (c : List Char)
    (rows : List (List (Char × Bool)))
    (h1 : ∀ a ∈ rows, all_eval (tvOf a) ps = some false)
    (h2 : ∀ a ∈ rows, (evaluate_statement c (tvOf a)).isSome) :
    check_rows ps c rows = some true := by
  induction rows with
  | nil => rfl
  | cons a rest ih =>
    have ha := h1 a (List.mem_cons_self a rest)
    obtain ⟨ct, hct⟩ :=
      Option.isSome_iff_exists.mp (h2 a (List.mem_cons_self a rest))
    have htail := ih (fun x hx => h1 x (List.mem_cons_of_mem a hx))
      (fun x hx => h2 x (List.mem_cons_of_mem a hx))
    simp [check_rows, ha, hct, htail]

/-- Claim C6 (amended): `check_validity` returns true for every
argument whose premise conjunction evaluates to false on every
enumerated assignment provided the conclusion's evaluation succeeds on
every enumerated assignment (without that proviso the checker can
propagate an evaluation error instead — see the counterexample); with
an empty premise list it returns true exactly when the conclusion
evaluates to true on every enumerated assignment; in particular
`check_validity(["A","~A"], "B")` and `check_validity([], "A+~A")`
return true. -/
theorem C6_thm (ps : List (List Char)) (c c2 : List Char)
    (h1 : ∀ a ∈ generate_truth_table (variablesOf (ps ++ [c])),
      all_eval (tvOf a) ps = some false)
    (h2 : ∀ a ∈ generate_truth_table (variablesOf (ps ++ [c])),
      (evaluate_statement c (tvOf a)).isSome) :
    check_validity ps c = some true ∧
    (check_validity [] c2 = some true ↔
      ∀ a ∈ generate_truth_table (variablesOf ([] ++ [c2])),
        evaluate_statement c2 (tvOf a) = some true) ∧
    check_validity [("A".toList), ("~A".toList)] ("B".toList) = some true ∧
    check_validity [] ("A+~A".toList) = some true :=
  ⟨check_rows_unsat _ _ _ h1 h2, check_rows_nil_prem _ _, by decide, by decide⟩

/-- Claim C6 witness: the amended theorem applied to the argument
`["A","~A"] ⊢ B` with tautology conclusion `A+~A` for the empty-
premise part. -/
theorem C6_wit :
    check_validity [("A".toList), ("~A".toList)] ("B".toList) = some true ∧
    (check_validity [] ("A+~A".toList) = some true ↔
      ∀ a ∈ generate_truth_table (variablesOf ([] ++ [("A+~A".toList)])),
        evaluate_statement ("A+~A".toList) (tvOf a) = some true) ∧
    check_validity [("A".toList), ("~A".toList)] ("B".toList) = some true ∧
    check_validity [] ("A+~A".toList) = some true :=
  C6_thm [("A".toList), ("~A".toList)] ("B".toList) ("A+~A".toList)
    (by decide) (by decide)

theorem not_wf_premises_eq (ps : List (List Char)) :
    not_wf_premises ps =
      some (((ps.filter fun p => is_well_formed p == some false).map
        premLine).flatten) := by
  induction ps with
  | nil => rfl
  | cons p rest ih =>
    obtain ⟨b, hb⟩ := wf_total p
    cases b with
    | true => simp [not_wf_premises, hb, ih, List.filter_cons]
    | false => simp [not_wf_premises, hb, ih, List.filter_cons]

/-- Claim C7: if some premise is ill-formed, `check_user_argument`
returns false with a message aggregating one diagnostic line per
ill-formed premise (the filter ranges over all premises, so it does
not stop at the first), and the result does not involve the validity
checker; if the premises are well-formed but the conclusion is not, it
returns false with the conclusion diagnostic; if everything is
well-formed it returns exactly the result of `check_validity` paired
with its verdict text. -/
theorem C7_thm (ps : List (List Char)) (c : List Char) :
    ((∃ p ∈ ps, is_well_formed p = some false) →
      check_user_argument ps c =
        some (false, ((ps.filter fun p => is_well_formed p == some false).map
          premLine).flatten)) ∧
    ((∀ p ∈ ps, is_well_formed p = some true) →
      is_well_formed c = some false →
      check_user_argument ps c = some (false, concLine c)) ∧
    ((∀ p ∈ ps, is_well_formed p = some true) →
      is_well_formed c = some true →
      check_user_argument ps c =
        (check_validity ps c).map fun v => (v, verdictLine v)) := by
  refine ⟨?_, ?_, ?_⟩
  · rintro ⟨p, hp, hpf⟩
    have hmem : p ∈ ps.filter (fun p => is_well_formed p == some false) :=
      List.mem_filter.mpr ⟨hp, by simp [hpf]⟩
    have hne : ((ps.filter fun p => is_well_formed p == some false).map
        premLine).flatten ≠ [] := by
      cases hf : ps.filter (fun p => is_well_formed p == some false) with
      | nil => rw [hf] at hmem; simp at hmem
      | cons q qs =>
        simp only [List.map_cons, List.flatten_cons]
        have hql : premLine q ≠ [] := by
          simp [premLine]
        intro habs
        exact hql (List.append_eq_nil.mp habs).1
    unfold check_user_argument
    rw [not_wf_premises_eq ps]
    simp [hne]
  · intro hall hc
    have hfil : ps.filter (fun p => is_well_formed p == some false) = [] := by
      rw [List.filter_eq_nil_iff]
      intro p hp
      simp [hall p hp]
    unfold check_user_argument
    rw [not_wf_premises_eq ps, hfil]
    simp [hc]
  · intro hall hc
    have hfil : ps.filter (fun p => is_well_formed p == some false) = [] := by
      rw [List.filter_eq_nil_iff]
      intro p hp
      simp [hall p hp]
    unfold check_user_argument
    rw [not_wf_premises_eq ps, hfil]
    cases hcv : check_validity ps c with
    | none => simp [hc, hcv]
    | some v => simp [hc, hcv]

/-- Claim C7 witness: the three branches at concrete arguments: two
ill-formed premises among three (both diagnostics aggregated), an
ill-formed conclusion, and a fully well-formed argument. -/
theorem C7_wit :
    check_user_argument [("A+".toList), ("B".toList), ("&C".toList)]
        ("A".toList) =
      some (false, (([("A+".toList), ("B".toList), ("&C".toList)].filter
        fun p => is_well_formed p == some false).map premLine).flatten) ∧
    check_user_argument [("A".toList)] ("B&".toList) =
      some (false, concLine ("B&".toList)) ∧
    check_user_argument [("A".toList)] ("A".toList) =
      (check_validity [("A".toList)] ("A".toList)).map
        fun v => (v, verdictLine v) :=
  ⟨(C7_thm [("A+".toList), ("B".toList), ("&C".toList)] ("A".toList)).1
      ⟨("A+".toList), by decide, by decide⟩,
    (C7_thm [("A".toList)] ("B&".toList)).2.1 (by decide) (by decide),
    (C7_thm [("A".toList)] ("A".toList)).2.2 (by decide) (by decide)⟩

theorem wfLoop_progress (x : Char) (rest : List Char) (d i : Nat) (last : Char)
    (h : wfLoop (x :: rest) d last i = some true) :
    ∃ d2, wfLoop rest d2 x (i + 1) = some true := by
  rw [wfLoop] at h
  split_ifs at h <;> first | exact ⟨_, h⟩ | simp_all

theorem neg_position (xs : List Char) :
    ∀ (ys : List Char) (d : Nat) (last : Char) (i : Nat),
      wfLoop (xs ++ '~' :: ys) d last i = some true →
      (xs = [] ∧ (isOperator last = true ∨ last = '~' ∨ last = '(' ∨ i = 0 ∨
        (ys.headD ' ' = '(' ∧ ys ≠ []))) ∨
      (xs ≠ [] ∧ (isOperator (xs.getLastD ' ') = true ∨
        xs.getLastD ' ' = '~' ∨ xs.getLastD ' ' = '(' ∨
        (ys.headD ' ' = '(' ∧ ys ≠ []))) := by
  induction xs with
  | nil =>
    intro ys d last i h
    left
    refine ⟨rfl, ?_⟩
    rw [List.nil_append, wfLoop] at h
    rw [if_neg (by decide), if_neg (by decide), if_pos rfl] at h
    by_cases hcond : ¬isOperator last = true ∧ i ≠ 0
    · rw [if_pos hcond] at h
      by_cases hys : ys = []
      · rw [if_pos hys] at h; simp at h
      · rw [if_neg hys] at h
        by_cases hin : ys.headD ' ' ≠ '(' ∧ last ≠ '~' ∧ last ≠ '('
        · rw [if_pos hin] at h; simp at h
        · tauto
    · tauto
  | cons x xs ih =>
    intro ys d last i h
    rw [List.cons_append] at h
    obtain ⟨d2, h2⟩ := wfLoop_progress x (xs ++ '~' :: ys) d i last h
    rcases ih ys d2 x (i + 1) h2 with ⟨hnil, hcond⟩ | ⟨hne, hcond⟩
    · subst hnil
      right
      refine ⟨by simp, ?_⟩
      have hgl : (([x] : List Char).getLastD ' ') = x := rfl
      rw [hgl]
      rcases hcond with h | h | h | h | h
      · exact Or.inl h
      · exact Or.inr (Or.inl h)
      · exact Or.inr (Or.inr (Or.inl h))
      · exact absurd h (Nat.succ_ne_zero i)
      · exact Or.inr (Or.inr (Or.inr h))
    · right
      refine ⟨by simp, ?_⟩
      have hgl : ((x :: xs).getLastD ' ') = xs.getLastD ' ' := by
        rw [List.getLastD_cons]
        exact getLastD_indep _ _ _ hne
      rw [hgl]
      exact hcond

/-- Claim C8: in every accepted formula, a Negation token occurs only
at the very start, immediately after a binary operator, immediately
after `(`, immediately after another `~`, or immediately before `(`;
concretely `~~A` is accepted and `A~B` is rejected. -/
theorem C8_thm (s xs ys : List Char)
    (hacc : is_well_formed s = some true)
    (hsplit : tokenize s = xs ++ '~' :: ys) :
    (xs = [] ∨ isOperator (xs.getLastD ' ') = true ∨ xs.getLastD ' ' = '~' ∨
      xs.getLastD ' ' = '(' ∨ (ys.headD ' ' = '(' ∧ ys ≠ [])) ∧
    is_well_formed ("~~A".toList) = some true ∧
    is_well_formed ("A~B".toList) = some false := by
  refine ⟨?_, by decide, by decide⟩
  have hloop : wfLoop (tokenize s) 0 ' ' 0 = some true := by
    unfold is_well_formed at hacc
    split_ifs at hacc
    · simp at hacc
    · exact hacc
    · simp at hacc
    · simp at hacc
  rw [hsplit] at hloop
  rcases neg_position xs ys 0 ' ' 0 hloop with ⟨hnil, -⟩ | ⟨-, hcond⟩
  · exact Or.inl hnil
  · rcases hcond with h | h | h | h
    · exact Or.inr (Or.inl h)
    · exact Or.inr (Or.inr (Or.inl h))
    · exact Or.inr (Or.inr (Or.inr (Or.inl h)))
    · exact Or.inr (Or.inr (Or.inr (Or.inr h)))

/-- Claim C8 witness: the accepted formula `A>~B`, whose negation
follows the binary operator `>`. -/
theorem C8_wit :
    ((['A', '>'] : List Char) = [] ∨
      isOperator ((['A', '>'] : List Char).getLastD ' ') = true ∨
      (['A', '>'] : List Char).getLastD ' ' = '~' ∨
      (['A', '>'] : List Char).getLastD ' ' = '(' ∨
      ((['B'] : List Char).headD ' ' = '(' ∧ (['B'] : List Char) ≠ [])) ∧
    is_well_formed ("~~A".toList) = some true ∧
    is_well_formed ("A~B".toList) = some false :=
  C8_thm ("A>~B".toList) ['A', '>'] ['B'] (by decide) (by decide)
